import Mathlib

/-!
Verification of the `file-chunker` library (`src/lib.rs`).

The byte sequence backing the `FileChunker` (the memory-mapped file) is
modelled as a `List Nat` of byte values; elements are the bytes `self.mmap[i]`
and `data.length` is `self.mmap.len()`.  The `chunks` method is modelled as a
function from the data, the requested `count` and the optional delimiter
character (given by its Unicode code point) to an outcome: the list of emitted
`[offset, end)` ranges on success, a `panicked` marker when the Rust code would
slice out of bounds (which aborts the call), and a `fuelOut` marker that is
proved unreachable for the fuel supplied by `chunks`.
-/

set_option autoImplicit false

namespace FileChunker

/-- Largest value of `usize` on a 64-bit target. -/
def usizeMax : Nat := 2 ^ 64 - 1

/-- Model of `fn chunk_size(file_size: usize, count: usize) -> usize`, which
computes `f64::ceil(file_size as f64 / count as f64) as usize`.

For `count ≥ 1` (and sizes in the range where `f64` arithmetic is exact, which
covers every realizable mmap length) this is exact ceiling division.  For
`count == 0` the `f64` division yields `inf` when `file_size > 0` (the `as
usize` cast saturates to `usize::MAX`) and `NaN` when `file_size == 0` (the
cast yields `0`). -/
def chunk_size (file_size count : Nat) : Nat :=
  if count = 0 then
    if file_size = 0 then 0 else usizeMax
  else (file_size + count - 1) / count

/-- Model of the inner delimiter scan of `chunks`:

    while (chunk_end < self.mmap.len() - 1) && (self.mmap[chunk_end] != delimiter as u8) {
        chunk_end += 1;
    }

`db` is the truncated delimiter byte (`delimiter as u8`), `i` is the running
`chunk_end`, and `steps` is structural fuel; `scanDelim` below supplies
`steps = data.length - 1 - i`, which is exactly the number of iterations the
Rust loop can still make, so the model is faithful.  The lookup `data.get? i`
is always `some` here because the guard gives `i < data.length - 1`. -/
def scanAux (data : List Nat) (db : Nat) : Nat → Nat → Nat
  | i, 0 => i
  | i, steps + 1 =>
    if i < data.length - 1 then
      if data.get? i = some db then i else scanAux data db (i + 1) steps
    else i

/-- The delimiter scan started at index `i` with delimiter character `d`:
returns the final value of `chunk_end` before the trailing `chunk_end += 1`.
The cast `delimiter as u8` truncates the code point to its low 8 bits. -/
def scanDelim (data : List Nat) (d : Nat) (i : Nat) : Nat :=
  scanAux data (d % 256) i (data.length - 1 - i)

/-- Outcome of one call to `chunks`.  `ok` carries the emitted `[offset, end)`
ranges.  `panicked` marks the runs in which the Rust code evaluates
`&self.mmap[offset..chunk_end]` with `chunk_end > self.mmap.len()` and aborts
with an out-of-bounds panic.  `fuelOut` is an artefact of the fuelled
recursion and is proved unreachable (see the termination theorem). -/
inductive ChunksResult where
  | ok (ranges : List (Nat × Nat))
  | panicked
  | fuelOut
  deriving DecidableEq, Repr

/-- Final value of `chunk_end` for the loop iteration at `offset` when the
early break was not taken: the naive boundary `offset + csize` when no
delimiter was requested, and otherwise the scan result plus the unconditional
trailing `chunk_end += 1`. -/
def boundaryEnd (data : List Nat) (csize : Nat) (delim : Option Nat) (offset : Nat) : Nat :=
  match delim with
  | none => offset + csize
  | some d => scanDelim data d (offset + csize) + 1

/-- Model of the `while offset < self.mmap.len()` loop of `chunks`.

Each iteration computes `chunk_end = offset + csize`; if it exceeds the length
(`chunk_end > self.mmap.len()`, strict) the final chunk `[offset, len)` is
emitted and the loop breaks; otherwise `chunk_end` becomes
`boundaryEnd data csize delim offset`.  The Rust slice
`&self.mmap[offset..chunk_end]` panics when `chunk_end > len`, which the model
reports as `panicked`. -/
def chunksLoop (data : List Nat) (csize : Nat) (delim : Option Nat) :
    Nat → Nat → ChunksResult
  | 0, offset =>
    if offset < data.length then ChunksResult.fuelOut else ChunksResult.ok []
  | fuel + 1, offset =>
    if offset < data.length then
      if data.length < offset + csize then
        ChunksResult.ok [(offset, data.length)]
      else if data.length < boundaryEnd data csize delim offset then
        ChunksResult.panicked
      else
        match chunksLoop data csize delim fuel (boundaryEnd data csize delim offset) with
        | ChunksResult.ok rest =>
            ChunksResult.ok ((offset, boundaryEnd data csize delim offset) :: rest)
        | r => r
    else ChunksResult.ok []

/-- Model of `pub fn chunks(&self, count: usize, delimiter: Option<char>)`.
`delimiter` carries the code point of the `char`.  The fuel `data.length + 1`
is sufficient (proved below): the loop makes at most one iteration per byte
because the offset strictly increases. -/
def chunks (data : List Nat) (count : Nat) (delimiter : Option Nat) : ChunksResult :=
  chunksLoop data (chunk_size data.length count) delimiter (data.length + 1) 0

/-- `isChain ranges start stop` states that `ranges` is a gapless, ascending
sequence of non-empty ranges beginning at `start` and ending at `stop`: each
range begins where the previous one ended. -/
def isChain : List (Nat × Nat) → Nat → Nat → Bool
  | [], s, t => s == t
  | (a, b) :: rest, s, t => a == s && Nat.blt a b && isChain rest b t

/-- The slice of `data` described by the range `r = (offset, end)`, that is,
the chunk `&self.mmap[r.1..r.2]`. -/
def sliceOf (data : List Nat) (r : Nat × Nat) : List Nat :=
  (data.drop r.1).take (r.2 - r.1)

/-! ### Basic facts about the delimiter scan -/

lemma le_scanAux (data : List Nat) (db : Nat) :
    ∀ steps i, i ≤ scanAux data db i steps := by
  intro steps
  induction steps with
  | zero => intro i; simp [scanAux]
  | succ n ih =>
    intro i
    simp only [scanAux]
    split
    · split
      · exact Nat.le_refl i
      · exact Nat.le_trans (Nat.le_succ i) (ih (i + 1))
    · exact Nat.le_refl i

lemma scanAux_hit (data : List Nat) (db : Nat) :
    ∀ steps i, data.length - 1 - i ≤ steps →
      scanAux data db i steps < data.length - 1 →
      data.get? (scanAux data db i steps) = some db := by
  intro steps
  induction steps with
  | zero =>
    intro i hs hlt
    simp only [scanAux] at hlt
    omega
  | succ n ih =>
    intro i hs hlt
    by_cases hi : i < data.length - 1
    · by_cases heq : data.get? i = some db
      · rw [scanAux, if_pos hi, if_pos heq]
        exact heq
      · rw [scanAux, if_pos hi, if_neg heq] at hlt ⊢
        exact ih (i + 1) (by omega) hlt
    · rw [scanAux, if_neg hi] at hlt
      omega

lemma scanAux_no_hit (data : List Nat) (db : Nat) :
    ∀ steps i, (∀ j, i ≤ j → j < data.length - 1 → data.get? j ≠ some db) →
      data.length - 1 - i ≤ steps → i ≤ data.length - 1 →
      scanAux data db i steps = data.length - 1 := by
  intro steps
  induction steps with
  | zero =>
    intro i _ hs hle
    simp only [scanAux]
    omega
  | succ n ih =>
    intro i hnone hs hle
    by_cases hi : i < data.length - 1
    · have heq : ¬ data.get? i = some db := hnone i (Nat.le_refl i) hi
      rw [scanAux, if_pos hi, if_neg heq]
      exact ih (i + 1) (fun j hj => hnone j (by omega)) (by omega) (by omega)
    · rw [scanAux, if_neg hi]
      omega

lemma le_boundaryEnd (data : List Nat) (csize : Nat) (delim : Option Nat) (offset : Nat) :
    offset + csize ≤ boundaryEnd data csize delim offset := by
  cases delim with
  | none => exact Nat.le_refl _
  | some d =>
    have := le_scanAux data (d % 256) (data.length - 1 - (offset + csize)) (offset + csize)
    simp only [boundaryEnd, scanDelim]
    omega

lemma lt_boundaryEnd_some (data : List Nat) (csize : Nat) (d : Nat) (offset : Nat) :
    offset + csize < boundaryEnd data csize (some d) offset := by
  have := le_scanAux data (d % 256) (data.length - 1 - (offset + csize)) (offset + csize)
  simp only [boundaryEnd, scanDelim]
  omega

/-! ### Basic facts about the loop -/

lemma chunksLoop_of_le (data : List Nat) (csize : Nat) (delim : Option Nat)
    (fuel offset : Nat) (h : data.length ≤ offset) :
    chunksLoop data csize delim fuel offset = ChunksResult.ok [] := by
  cases fuel <;> simp [chunksLoop, Nat.not_lt.mpr h]

/-! ### The emitted ranges form a gapless chain -/

lemma isChain_le : ∀ (l : List (Nat × Nat)) (s t : Nat), isChain l s t = true → s ≤ t := by
  intro l
  induction l with
  | nil =>
    intro s t h
    simp only [isChain, beq_iff_eq] at h
    omega
  | cons r rest ih =>
    intro s t h
    obtain ⟨a, b⟩ := r
    simp only [isChain, Bool.and_eq_true, beq_iff_eq, Nat.blt_eq] at h
    obtain ⟨⟨h1, h2⟩, h3⟩ := h
    have := ih b t h3
    omega

lemma isChain_flatten (data : List Nat) :
    ∀ (l : List (Nat × Nat)) (s : Nat), isChain l s data.length = true →
      (l.map (sliceOf data)).flatten = data.drop s := by
  intro l
  induction l with
  | nil =>
    intro s h
    simp only [isChain, beq_iff_eq] at h
    simp [h]
  | cons r rest ih =>
    intro s h
    obtain ⟨a, b⟩ := r
    simp only [isChain, Bool.and_eq_true, beq_iff_eq, Nat.blt_eq] at h
    obtain ⟨⟨h1, h2⟩, h3⟩ := h
    subst h1
    simp only [List.map_cons, List.flatten_cons, ih b h3, sliceOf]
    have hdd : data.drop b = (data.drop a).drop (b - a) := by
      rw [List.drop_drop]
      congr 1
      omega
    rw [hdd, List.take_append_drop]

lemma chunksLoop_chain (data : List Nat) (csize : Nat) (delim : Option Nat)
    (hcs : 1 ≤ csize) :
    ∀ fuel offset l, offset ≤ data.length →
      chunksLoop data csize delim fuel offset = ChunksResult.ok l →
      isChain l offset data.length = true := by
  intro fuel
  induction fuel with
  | zero =>
    intro offset l hoff h
    by_cases h1 : offset < data.length
    · simp [chunksLoop, h1] at h
    · simp only [chunksLoop, if_neg h1, ChunksResult.ok.injEq] at h
      subst h
      simp only [isChain, beq_iff_eq]
      omega
  | succ fuel ih =>
    intro offset l hoff h
    by_cases h1 : offset < data.length
    · rw [chunksLoop, if_pos h1] at h
      by_cases h2 : data.length < offset + csize
      · rw [if_pos h2] at h
        simp only [ChunksResult.ok.injEq] at h
        subst h
        simp [isChain, Nat.blt_eq, h1]
      · rw [if_neg h2] at h
        by_cases h3 : data.length < boundaryEnd data csize delim offset
        · rw [if_pos h3] at h
          simp at h
        · rw [if_neg h3] at h
          cases hrec : chunksLoop data csize delim fuel (boundaryEnd data csize delim offset) with
          | ok rest =>
            rw [hrec] at h
            simp only [ChunksResult.ok.injEq] at h
            subst h
            have hb : offset < boundaryEnd data csize delim offset := by
              have := le_boundaryEnd data csize delim offset
              omega
            have hchain := ih (boundaryEnd data csize delim offset) rest (by omega) hrec
            simp [isChain, Nat.blt_eq, hb, hchain]
          | panicked =>
            rw [hrec] at h
            simp at h
          | fuelOut =>
            rw [hrec] at h
            simp at h
    · rw [chunksLoop, if_neg h1] at h
      simp only [ChunksResult.ok.injEq] at h
      subst h
      simp only [isChain, beq_iff_eq]
      omega

/-! ### Arithmetic facts about `chunk_size` -/

lemma chunk_size_pos (file_size count : Nat) (hc : 1 ≤ count) (hf : 1 ≤ file_size) :
    1 ≤ chunk_size file_size count := by
  simp only [chunk_size, if_neg (by omega : ¬ count = 0)]
  rw [Nat.one_le_div_iff (by omega)]
  omega

lemma length_le_mul_chunk_size (file_size count : Nat) (hc : 1 ≤ count) :
    file_size ≤ count * chunk_size file_size count := by
  simp only [chunk_size, if_neg (by omega : ¬ count = 0)]
  have h1 := Nat.div_add_mod (file_size + count - 1) count
  have h2 := Nat.mod_lt (file_size + count - 1) (y := count) (by omega)
  omega

lemma chunk_size_of_dvd (file_size count : Nat) (hc : 1 ≤ count) (hf : 1 ≤ file_size)
    (hdvd : count ∣ file_size) : count * chunk_size file_size count = file_size := by
  obtain ⟨m, hm⟩ := hdvd
  simp only [chunk_size, if_neg (by omega : ¬ count = 0)]
  have hm1 : 1 ≤ m := by
    rcases Nat.eq_zero_or_pos m with h | h
    · subst h
      simp at hm
      omega
    · exact h
  have hnum : file_size + count - 1 = count * m + (count - 1) := by omega
  rw [hnum, Nat.mul_add_div (by omega), Nat.div_eq_of_lt (by omega), Nat.add_zero]
  omega

/-! ### Chunk count without a delimiter -/

lemma chunksLoop_none_length (data : List Nat) (csize : Nat) (hcs : 1 ≤ csize) :
    ∀ fuel offset l, offset ≤ data.length →
      chunksLoop data csize none fuel offset = ChunksResult.ok l →
      l.length = (data.length - offset + csize - 1) / csize := by
  intro fuel
  induction fuel with
  | zero =>
    intro offset l hoff h
    by_cases h1 : offset < data.length
    · simp [chunksLoop, h1] at h
    · simp only [chunksLoop, if_neg h1, ChunksResult.ok.injEq] at h
      subst h
      have h0 : data.length - offset = 0 := by omega
      simp only [List.length_nil]
      rw [h0, Nat.zero_add, Nat.div_eq_of_lt (by omega)]
  | succ fuel ih =>
    intro offset l hoff h
    by_cases h1 : offset < data.length
    · rw [chunksLoop, if_pos h1] at h
      by_cases h2 : data.length < offset + csize
      · rw [if_pos h2] at h
        simp only [ChunksResult.ok.injEq] at h
        subst h
        have ha : data.length - offset + csize - 1
            = csize * 1 + (data.length - offset - 1) := by omega
        rw [ha, Nat.mul_add_div (by omega), Nat.div_eq_of_lt (by omega)]
        simp
      · rw [if_neg h2] at h
        rw [if_neg (by simpa [boundaryEnd] using h2)] at h
        cases hrec : chunksLoop data csize none fuel (boundaryEnd data csize none offset) with
        | ok rest =>
          rw [hrec] at h
          simp only [ChunksResult.ok.injEq] at h
          subst h
          have hbe : boundaryEnd data csize none offset = offset + csize := rfl
          have hrest := ih (boundaryEnd data csize none offset) rest (by rw [hbe]; omega) hrec
          rw [hbe] at hrest
          simp only [List.length_cons, hrest, hbe]
          have hA : data.length - offset + csize - 1 = (data.length - offset - 1) + csize := by
            omega
          have hB : data.length - (offset + csize) + csize - 1 = data.length - offset - 1 := by
            omega
          rw [hA, hB, Nat.add_div_right _ (by omega)]
        | panicked =>
          rw [hrec] at h
          simp at h
        | fuelOut =>
          rw [hrec] at h
          simp at h
    · rw [chunksLoop, if_neg h1] at h
      simp only [ChunksResult.ok.injEq] at h
      subst h
      have h0 : data.length - offset = 0 := by omega
      simp only [List.length_nil]
      rw [h0, Nat.zero_add, Nat.div_eq_of_lt (by omega)]

/-! ### Chunk count bound with a delimiter -/

lemma chunksLoop_some_length_bound (data : List Nat) (csize : Nat) (d : Nat) :
    ∀ fuel offset l, offset < data.length →
      chunksLoop data csize (some d) fuel offset = ChunksResult.ok l →
      l ≠ [] ∧ offset + 1 + (l.length - 1) * csize ≤ data.length := by
  intro fuel
  induction fuel with
  | zero =>
    intro offset l hoff h
    simp [chunksLoop, hoff] at h
  | succ fuel ih =>
    intro offset l hoff h
    rw [chunksLoop, if_pos hoff] at h
    by_cases h2 : data.length < offset + csize
    · rw [if_pos h2] at h
      simp only [ChunksResult.ok.injEq] at h
      subst h
      refine ⟨by simp, ?_⟩
      simp only [List.length_cons, List.length_nil]
      omega
    · rw [if_neg h2] at h
      by_cases h3 : data.length < boundaryEnd data csize (some d) offset
      · rw [if_pos h3] at h
        simp at h
      · rw [if_neg h3] at h
        cases hrec : chunksLoop data csize (some d) fuel
            (boundaryEnd data csize (some d) offset) with
        | ok rest =>
          rw [hrec] at h
          simp only [ChunksResult.ok.injEq] at h
          subst h
          refine ⟨by simp, ?_⟩
          by_cases h4 : boundaryEnd data csize (some d) offset < data.length
          · obtain ⟨hne, hlen⟩ := ih _ rest h4 hrec
            have hbe := lt_boundaryEnd_some data csize d offset
            have hrl : 1 ≤ rest.length := List.length_pos.mpr hne
            simp only [List.length_cons, Nat.add_sub_cancel]
            have hB : (rest.length - 1) * csize = rest.length * csize - csize :=
              Nat.sub_one_mul _ _
            have hcsA : csize ≤ rest.length * csize := by
              calc csize = 1 * csize := (Nat.one_mul _).symm
              _ ≤ rest.length * csize := Nat.mul_le_mul_right csize hrl
            omega
          · have hbeq : boundaryEnd data csize (some d) offset = data.length := by omega
            have h0 := chunksLoop_of_le data csize (some d) fuel
              (boundaryEnd data csize (some d) offset) (by omega)
            rw [h0] at hrec
            simp only [ChunksResult.ok.injEq] at hrec
            subst hrec
            simp only [List.length_cons, List.length_nil]
            omega
        | panicked =>
          rw [hrec] at h
          simp at h
        | fuelOut =>
          rw [hrec] at h
          simp at h

/-! ### Every non-terminal chunk ends with the delimiter byte -/

lemma chunksLoop_some_align (data : List Nat) (csize : Nat) (d : Nat) :
    ∀ fuel offset l, chunksLoop data csize (some d) fuel offset = ChunksResult.ok l →
      ∀ r, r ∈ l.dropLast → 0 < r.2 ∧ data.get? (r.2 - 1) = some (d % 256) := by
  intro fuel
  induction fuel with
  | zero =>
    intro offset l h r hr
    by_cases h1 : offset < data.length
    · simp [chunksLoop, h1] at h
    · simp only [chunksLoop, if_neg h1, ChunksResult.ok.injEq] at h
      subst h
      simp at hr
  | succ fuel ih =>
    intro offset l h r hr
    by_cases h1 : offset < data.length
    · rw [chunksLoop, if_pos h1] at h
      by_cases h2 : data.length < offset + csize
      · rw [if_pos h2] at h
        simp only [ChunksResult.ok.injEq] at h
        subst h
        simp at hr
      · rw [if_neg h2] at h
        by_cases h3 : data.length < boundaryEnd data csize (some d) offset
        · rw [if_pos h3] at h
          simp at h
        · rw [if_neg h3] at h
          cases hrec : chunksLoop data csize (some d) fuel
              (boundaryEnd data csize (some d) offset) with
          | ok rest =>
            rw [hrec] at h
            simp only [ChunksResult.ok.injEq] at h
            subst h
            cases rest with
            | nil => simp at hr
            | cons r0 rs =>
              rw [List.dropLast_cons₂, List.mem_cons] at hr
              rcases hr with hr | hr
              · subst hr
                have hlt : boundaryEnd data csize (some d) offset < data.length := by
                  by_contra hge
                  have h0 := chunksLoop_of_le data csize (some d) fuel
                    (boundaryEnd data csize (some d) offset) (by omega)
                  rw [h0] at hrec
                  simp at hrec
                have hbe_def : boundaryEnd data csize (some d) offset
                    = scanAux data (d % 256) (offset + csize)
                        (data.length - 1 - (offset + csize)) + 1 := rfl
                rw [hbe_def] at hlt ⊢
                have hp := scanAux_hit data (d % 256)
                  (data.length - 1 - (offset + csize)) (offset + csize)
                  (Nat.le_refl _) (by omega)
                refine ⟨by omega, ?_⟩
                simpa using hp
              · exact ih _ (r0 :: rs) hrec r hr
          | panicked =>
            rw [hrec] at h
            simp at h
          | fuelOut =>
            rw [hrec] at h
            simp at h
    · rw [chunksLoop, if_neg h1] at h
      simp only [ChunksResult.ok.injEq] at h
      subst h
      simp at hr

/-! ### The fuel supplied by `chunks` is always sufficient -/

lemma chunksLoop_ne_fuelOut (data : List Nat) (csize : Nat) (delim : Option Nat)
    (hcs : 1 ≤ csize) :
    ∀ fuel offset, data.length ≤ offset + fuel →
      chunksLoop data csize delim fuel offset ≠ ChunksResult.fuelOut := by
  intro fuel
  induction fuel with
  | zero =>
    intro offset hf
    rw [chunksLoop, if_neg (by omega)]
    simp
  | succ fuel ih =>
    intro offset hf
    by_cases h1 : offset < data.length
    · rw [chunksLoop, if_pos h1]
      by_cases h2 : data.length < offset + csize
      · rw [if_pos h2]
        simp
      · rw [if_neg h2]
        by_cases h3 : data.length < boundaryEnd data csize delim offset
        · rw [if_pos h3]
          simp
        · rw [if_neg h3]
          have hbe := le_boundaryEnd data csize delim offset
          have hne := ih (boundaryEnd data csize delim offset) (by omega)
          cases hrec : chunksLoop data csize delim fuel
              (boundaryEnd data csize delim offset) with
          | ok rest => simp
          | panicked => simp
          | fuelOut => exact absurd hrec hne
    · rw [chunksLoop, if_neg h1]
      simp

/-! ### The delimiter only matters modulo 256 -/

lemma scanDelim_congr (data : List Nat) (c d : Nat) (h : c % 256 = d % 256) :
    ∀ i, scanDelim data c i = scanDelim data d i := by
  intro i
  simp [scanDelim, h]

lemma boundaryEnd_congr (data : List Nat) (csize c d : Nat) (h : c % 256 = d % 256) :
    ∀ offset, boundaryEnd data csize (some c) offset = boundaryEnd data csize (some d) offset := by
  intro offset
  simp [boundaryEnd, scanDelim_congr data c d h]

lemma chunksLoop_congr (data : List Nat) (csize c d : Nat) (h : c % 256 = d % 256) :
    ∀ fuel offset,
      chunksLoop data csize (some c) fuel offset
        = chunksLoop data csize (some d) fuel offset := by
  intro fuel
  induction fuel with
  | zero => intro offset; rfl
  | succ fuel ih =>
    intro offset
    rw [chunksLoop, chunksLoop]
    simp only [boundaryEnd_congr data csize c d h, ih]

/-! ### Collapse of the remainder when the delimiter never occurs again -/

lemma chunksLoop_collapse (data : List Nat) (csize d offset fuel : Nat)
    (hoff : offset < data.length) (hlt : offset + csize < data.length)
    (hnone : ∀ j, j < data.length → offset + csize ≤ j → data.get? j ≠ some (d % 256))
    (hfuel : 1 ≤ fuel) :
    chunksLoop data csize (some d) fuel offset
      = ChunksResult.ok [(offset, data.length)] := by
  obtain ⟨fuel, rfl⟩ : ∃ f, fuel = f + 1 := ⟨fuel - 1, by omega⟩
  rw [chunksLoop, if_pos hoff, if_neg (by omega)]
  have hscan : scanAux data (d % 256) (offset + csize)
      (data.length - 1 - (offset + csize)) = data.length - 1 := by
    apply scanAux_no_hit
    · intro j hj1 hj2
      exact hnone j (by omega) hj1
    · exact Nat.le_refl _
    · omega
  have hbe : boundaryEnd data csize (some d) offset = data.length := by
    simp only [boundaryEnd, scanDelim, hscan]
    omega
  rw [hbe, if_neg (Nat.lt_irrefl _),
    chunksLoop_of_le data csize (some d) fuel data.length (Nat.le_refl _)]

/-! ## Claim theorems -/

/-- C1: the claim that `chunks` never reads or slices out of bounds is refuted
by the code: on the one-byte sequence `[48]` with `count = 2` and delimiter
`'\n'` (code point 10) the naive boundary equals `total_length`, the scan
loop body never runs, the trailing `chunk_end += 1` makes `chunk_end =
total_length + 1`, and `&mmap[0..2]` on a length-1 map panics.  This is the
`total_length == 1` case the claim singles out as safe. -/
theorem chunks_oob_panic_on_singleton :
    chunks [48] 2 (some 10) = ChunksResult.panicked := by decide

/-- C2 (amended): whenever `chunks` returns a chunk sequence (for some inputs
with a delimiter it instead panics, see the counterexample), the returned
ranges are contiguous, non-overlapping, in ascending offset order, start at 0,
end at the total length, and the concatenation of the corresponding slices
reproduces the byte sequence exactly. -/
theorem chunks_partition (data : List Nat) (count : Nat) (delimiter : Option Nat)
    (ranges : List (Nat × Nat)) (hc : 1 ≤ count)
    (h : chunks data count delimiter = ChunksResult.ok ranges) :
    isChain ranges 0 data.length = true
      ∧ (ranges.map (sliceOf data)).flatten = data := by
  rcases Nat.eq_zero_or_pos data.length with hlen | hlen
  · have hdata : data = [] := List.length_eq_zero.mp hlen
    subst hdata
    have h0 : chunks [] count delimiter = ChunksResult.ok [] := by
      unfold chunks
      exact chunksLoop_of_le [] _ delimiter _ 0 (by simp)
    rw [h0] at h
    simp only [ChunksResult.ok.injEq] at h
    subst h
    constructor
    · simp [isChain]
    · simp
  · have hcs : 1 ≤ chunk_size data.length count := chunk_size_pos data.length count hc hlen
    have hchain := chunksLoop_chain data _ delimiter hcs (data.length + 1) 0 ranges
      (by omega) h
    refine ⟨hchain, ?_⟩
    have := isChain_flatten data ranges 0 hchain
    simpa using this

/-- C2 witness: on the two-byte sequence "01" with count 1 and no delimiter
the returned single range is a chain covering the data and its slice
concatenation reproduces the data. -/
theorem chunks_partition_witness :
    (1 ≤ 1) ∧ chunks [48, 49] 1 none = ChunksResult.ok [(0, 2)]
      ∧ (isChain [(0, 2)] 0 (([48, 49] : List Nat)).length = true
          ∧ (([(0, 2)] : List (Nat × Nat)).map (sliceOf [48, 49])).flatten = [48, 49]) :=
  ⟨by decide, by decide, chunks_partition [48, 49] 1 none [(0, 2)] (by decide) (by decide)⟩

/-- C2 counterexample: on "aa" with count 1 and delimiter `'\n'` the call
panics, so no chunk sequence is returned at all and the claim as stated (a
partition is returned for every byte sequence and valid request) fails. -/
theorem chunks_partition_counterexample :
    chunks [97, 97] 1 (some 10) = ChunksResult.panicked
      ∧ chunks [97, 97] 1 (some 10) ≠ ChunksResult.ok [(0, 2)] := by
  refine ⟨by decide, by decide⟩

/-- C3: with `count = 0` the code does not fail with an InvalidArgument error:
`chunk_size` becomes `usize::MAX` (the f64 division yields infinity and the
`as usize` cast saturates), the first iteration takes the early break, and the
whole nonempty file is returned as one chunk.  The code has no error path for
`count = 0` at all. -/
theorem chunks_count_zero_no_error :
    chunks [48] 0 none = ChunksResult.ok [(0, 1)] := by decide

/-- C4: the claim that a naive boundary `offset + target_size ≥ total_length`
always produces the terminal chunk `[offset, total_length)` fails when the
boundary exactly equals `total_length` and a delimiter was requested: the code
uses a strict `>` comparison for the early break, enters the delimiter scan,
and panics.  On `[10, 10]` (two newlines) with `count = 1` and delimiter
`'\n'` the boundary is 2 = total_length, yet the call panics instead of
emitting `[0, 2)`. -/
theorem chunks_boundary_eq_len_panics :
    chunks [10, 10] 1 (some 10) = ChunksResult.panicked := by decide

/-- C5 counterexample: a five-byte sequence with `count = 4` and no delimiter
yields 3 chunks, not the requested 4: `chunk_size = ceil(5/4) = 2` and
`ceil(5/2) = 3`. -/
theorem chunks_none_count_counterexample :
    chunks [48, 49, 50, 51, 52] 4 none = ChunksResult.ok [(0, 2), (2, 4), (4, 5)]
      ∧ ([(0, 2), (2, 4), (4, 5)] : List (Nat × Nat)).length ≠ 4 := by
  refine ⟨by decide, by decide⟩

/-- C5 (amended): with no delimiter and a nonempty sequence, `chunks` returns
between 1 and `count` chunks; the number equals `count` exactly when `count`
divides the total length (the final chunk absorbs any remainder), but can be
smaller otherwise because the ceiling rounding of `chunk_size` makes every
chunk larger. -/
theorem chunks_none_count_bounds (data : List Nat) (count : Nat)
    (ranges : List (Nat × Nat)) (hc : 1 ≤ count) (hlen : 0 < data.length)
    (h : chunks data count none = ChunksResult.ok ranges) :
    1 ≤ ranges.length ∧ ranges.length ≤ count
      ∧ (count ∣ data.length → ranges.length = count) := by
  have hcs : 1 ≤ chunk_size data.length count := chunk_size_pos data.length count hc hlen
  have hlenq := chunksLoop_none_length data _ hcs (data.length + 1) 0 ranges (by omega) h
  rw [Nat.sub_zero] at hlenq
  have hmul : data.length ≤ count * chunk_size data.length count :=
    length_le_mul_chunk_size data.length count hc
  set s := chunk_size data.length count with hs
  refine ⟨?_, ?_, ?_⟩
  · rw [hlenq, Nat.one_le_div_iff (by omega)]
    omega
  · rw [hlenq]
    have h1 : data.length + s - 1 < (count + 1) * s := by
      have h2 : (count + 1) * s = count * s + s := by ring
      omega
    have h3 := (Nat.div_lt_iff_lt_mul (by omega : 0 < s)).mpr h1
    omega
  · intro hdvd
    have hms : count * s = data.length := chunk_size_of_dvd data.length count hc hlen hdvd
    have hcomm : count * s = s * count := Nat.mul_comm _ _
    have hnum : data.length + s - 1 = s * count + (s - 1) := by omega
    rw [hlenq, hnum, Nat.mul_add_div (by omega), Nat.div_eq_of_lt (by omega), Nat.add_zero]

/-- C5 witness: four bytes, count 2, no delimiter: exactly 2 chunks, within
the bounds, and 2 divides 4. -/
theorem chunks_none_count_bounds_witness :
    (1 ≤ 2) ∧ (0 < 4) ∧ chunks [97, 98, 99, 100] 2 none = ChunksResult.ok [(0, 2), (2, 4)]
      ∧ (1 ≤ ([(0, 2), (2, 4)] : List (Nat × Nat)).length
          ∧ ([(0, 2), (2, 4)] : List (Nat × Nat)).length ≤ 2
          ∧ (2 ∣ ([97, 98, 99, 100] : List Nat).length
              → ([(0, 2), (2, 4)] : List (Nat × Nat)).length = 2)) :=
  ⟨by decide, by decide, by decide,
    chunks_none_count_bounds [97, 98, 99, 100] 2 [(0, 2), (2, 4)] (by decide) (by decide)
      (by decide)⟩

/-- C6: with a delimiter, `chunks` never returns more than `count` chunks:
every non-terminal chunk is strictly longer than `chunk_size`, so at most
`count` chunks fit in the sequence. -/
theorem chunks_some_at_most_count (data : List Nat) (count d : Nat)
    (ranges : List (Nat × Nat)) (hc : 1 ≤ count)
    (h : chunks data count (some d) = ChunksResult.ok ranges) :
    ranges.length ≤ count := by
  rcases Nat.eq_zero_or_pos data.length with hlen | hlen
  · have h0 : chunks data count (some d) = ChunksResult.ok [] := by
      unfold chunks
      exact chunksLoop_of_le data _ _ _ 0 (by omega)
    rw [h0] at h
    simp only [ChunksResult.ok.injEq] at h
    subst h
    simp
  · obtain ⟨hne, hbound⟩ :=
      chunksLoop_some_length_bound data _ d (data.length + 1) 0 ranges hlen h
    have hcs : 1 ≤ chunk_size data.length count := chunk_size_pos data.length count hc hlen
    have hmul : data.length ≤ count * chunk_size data.length count :=
      length_le_mul_chunk_size data.length count hc
    set s := chunk_size data.length count with hs
    have hlt : s * (ranges.length - 1) < s * count := by
      have e1 : s * (ranges.length - 1) = (ranges.length - 1) * s := Nat.mul_comm _ _
      have e2 : s * count = count * s := Nat.mul_comm _ _
      omega
    have := Nat.lt_of_mul_lt_mul_left hlt
    omega

/-- C6 witness: four newlines, count 2, delimiter `'\n'`: 2 chunks ≤ 2. -/
theorem chunks_some_at_most_count_witness :
    (1 ≤ 2) ∧ chunks [10, 10, 10, 10] 2 (some 10) = ChunksResult.ok [(0, 3), (3, 4)]
      ∧ ([(0, 3), (3, 4)] : List (Nat × Nat)).length ≤ 2 :=
  ⟨by decide, by decide,
    chunks_some_at_most_count [10, 10, 10, 10] 2 10 [(0, 3), (3, 4)] (by decide) (by decide)⟩

/-- C7: when a delimiter is given and the delimiter byte occurs strictly after
each naive boundary and before end-of-file, every chunk except the terminal
one ends with the (truncated) delimiter byte as its last byte.  (The code in
fact guarantees the conclusion for every successful run: the scan only stops
early on a delimiter byte, so the occurrence hypothesis recorded from the
claim is not even needed.) -/
theorem chunks_delimiter_alignment (data : List Nat) (count d : Nat)
    (ranges : List (Nat × Nat)) (_hc : 1 ≤ count)
    (h : chunks data count (some d) = ChunksResult.ok ranges)
    (_hocc : ∀ p, p < data.length →
      p + chunk_size data.length count < data.length - 1 →
      ∃ j, j < data.length - 1 ∧ (p + chunk_size data.length count ≤ j
        ∧ data.get? j = some (d % 256))) :
    ∀ r, r ∈ ranges.dropLast → 0 < r.2 ∧ data.get? (r.2 - 1) = some (d % 256) :=
  fun r hr => chunksLoop_some_align data _ d (data.length + 1) 0 ranges h r hr

/-- C7 witness: four newlines, count 2, delimiter `'\n'`: the delimiter occurs
after the only interior naive boundary, and the sole non-terminal chunk
`(0, 3)` ends with byte 10. -/
theorem chunks_delimiter_alignment_witness :
    (1 ≤ 2) ∧ chunks [10, 10, 10, 10] 2 (some 10) = ChunksResult.ok [(0, 3), (3, 4)]
      ∧ ((0, 3) ∈ ([(0, 3), (3, 4)] : List (Nat × Nat)).dropLast)
      ∧ (0 < (3 : Nat) ∧ ([10, 10, 10, 10] : List Nat).get? 2 = some 10) :=
  ⟨by decide, by decide, by decide,
    chunks_delimiter_alignment [10, 10, 10, 10] 2 10 [(0, 3), (3, 4)] (by decide) (by decide)
      (by decide) (0, 3) (by decide)⟩

/-- C8 (amended): when the delimiter byte does not occur at or after the naive
boundary `offset + csize` before end-of-file and that boundary is strictly
below the total length, the scan runs to `total_length - 1` and all remaining
bytes collapse into the single terminal chunk `[offset, total_length)`; in
particular `chunks(10, '\n')` on "0123456789" returns one chunk equal to the
whole sequence.  (When the naive boundary equals the total length the code
panics instead of collapsing — see the counterexample.) -/
theorem chunks_delimiter_collapse :
    (∀ (data : List Nat) (csize d offset fuel : Nat),
        offset < data.length → offset + csize < data.length →
        (∀ j, j < data.length → offset + csize ≤ j → data.get? j ≠ some (d % 256)) →
        1 ≤ fuel →
        chunksLoop data csize (some d) fuel offset
          = ChunksResult.ok [(offset, data.length)])
      ∧ chunks [48, 49, 50, 51, 52, 53, 54, 55, 56, 57] 10 (some 10)
          = ChunksResult.ok [(0, 10)] :=
  ⟨fun data csize d offset fuel hoff hlt hnone hfuel =>
    chunksLoop_collapse data csize d offset fuel hoff hlt hnone hfuel, by decide⟩

/-- C8 witness: "abc" with chunk size 1 from offset 0: no newline occurs at or
after the boundary 1, so the whole remainder is one chunk `[0, 3)`. -/
theorem chunks_delimiter_collapse_witness :
    (0 < 3) ∧ (0 + 1 < 3)
      ∧ chunksLoop [97, 98, 99] 1 (some 10) 3 0 = ChunksResult.ok [(0, 3)] :=
  ⟨by decide, by decide,
    chunks_delimiter_collapse.1 [97, 98, 99] 1 10 0 3 (by decide) (by decide) (by decide)
      (by decide)⟩

/-- C8 counterexample: on "ab" with count 1 and delimiter `'\n'` the delimiter
never occurs at or after the naive boundary (which equals the total length, so
the occurrence set is empty), yet the remainder does not collapse into the
terminal chunk `[0, 2)`: the call panics. -/
theorem chunks_delimiter_collapse_counterexample :
    chunks [97, 98] 1 (some 10) = ChunksResult.panicked
      ∧ chunks [97, 98] 1 (some 10) ≠ ChunksResult.ok [(0, 2)] := by
  refine ⟨by decide, by decide⟩

/-- C9: the chunking loop always terminates: the fuel `data.length + 1`
supplied by `chunks` is never exhausted, because the offset strictly increases
on every iteration (by at least `chunk_size ≥ 1`). -/
theorem chunks_terminates (data : List Nat) (count : Nat) (delimiter : Option Nat)
    (hc : 1 ≤ count) : chunks data count delimiter ≠ ChunksResult.fuelOut := by
  rcases Nat.eq_zero_or_pos data.length with hlen | hlen
  · unfold chunks
    rw [chunksLoop_of_le data _ delimiter _ 0 (by omega)]
    simp
  · have hcs : 1 ≤ chunk_size data.length count := chunk_size_pos data.length count hc hlen
    unfold chunks
    exact chunksLoop_ne_fuelOut data _ delimiter hcs (data.length + 1) 0 (by omega)

/-- C9 witness: one byte, count 1, no delimiter: the loop terminates. -/
theorem chunks_terminates_witness :
    (1 ≤ 1) ∧ chunks [48] 1 none ≠ ChunksResult.fuelOut :=
  ⟨by decide, chunks_terminates [48] 1 none (by decide)⟩

/-- C10: the delimiter character is truncated to its low 8 bits by the
`delimiter as u8` cast before each comparison, so two delimiter characters
whose code points are congruent modulo 256 give identical results. -/
theorem chunks_delimiter_truncated (data : List Nat) (count c d : Nat)
    (_hc : 1 ≤ count) (_hcchar : c < 1114112) (_hdchar : d < 1114112)
    (hmod : c % 256 = d % 256) :
    chunks data count (some c) = chunks data count (some d) := by
  unfold chunks
  exact chunksLoop_congr data _ c d hmod (data.length + 1) 0

/-- C10 witness: `'\n'` (10) and `'Ċ'` (266 = 10 + 256) behave identically on
"01" with count 2. -/
theorem chunks_delimiter_truncated_witness :
    (1 ≤ 2) ∧ (10 < 1114112) ∧ (266 < 1114112) ∧ (10 % 256 = 266 % 256)
      ∧ chunks [48, 49] 2 (some 10) = chunks [48, 49] 2 (some 266) :=
  ⟨by decide, by decide, by decide, by decide,
    chunks_delimiter_truncated [48, 49] 2 10 266 (by decide) (by decide) (by decide)
      (by decide)⟩

end FileChunker
